import Mathlib

/-!
Verification of the numeral-evaluation core of the complex-base numeral-system
visualizer (`src/app.py`).  The embedded functions are:

* `generate_roots_of_unity` — the symbol-table generator (lines 14-25);
* `from_repr` — polynomial evaluation of a digit string in a complex radix
  (lines 28-43);
* `to_base` — repeated-division digit conversion (lines 46-63), embedded with
  explicit fuel because the Python loop does not terminate for `base = 1`;
* the digit-length / normalized-weight computation of `draw` (lines 91-101).

Machine integers are modelled as `Nat`; Python's exact complex arithmetic is
modelled over `ℂ`; runtime errors are modelled with `Except PyErr`.
-/

/-- Python runtime error conditions that the embedded code can raise. -/
inductive PyErr : Type
  | ValueError
  | IndexError
  | ZeroDivisionError
  deriving DecidableEq

deriving instance DecidableEq for Except

/-- The decimal digit character of a value below ten (`str(d)` for `d < 10`). -/
def decChar (d : Nat) : Char :=
  Char.ofNat (48 + d)

/-- The numeric value Python's `int` assigns to a decimal digit character. -/
def digitVal (c : Char) : Nat :=
  c.toNat - 48

/-- Python's `int(digit)` on a one-character string: the value for `'0'`..`'9'`,
a `ValueError` for any other character. -/
def pyInt (c : Char) : Except PyErr Nat :=
  if c.isDigit then .ok (digitVal c) else .error .ValueError

/-- Fueled loop producing the decimal digit characters of `n`, most significant
first, in front of `acc`. -/
def pyStrAux : Nat → Nat → List Char → List Char
  | 0, _, acc => acc
  | fuel + 1, n, acc =>
    if n = 0 then acc else pyStrAux fuel (n / 10) (decChar (n % 10) :: acc)

/-- Python's `str` on a natural number: its decimal digit characters, most
significant first (`n` units of fuel always suffice for `n`). -/
def pyStr (n : Nat) : List Char :=
  if n = 0 then ['0'] else pyStrAux n n []

/-- The loop of `from_repr` (src/app.py lines 40-42): walks the reversed digit
string and accumulates `symbols[int(digit)] * radix ** index`. -/
def from_repr_aux (radix : ℂ) (symbols : List ℂ) :
    List Char → Nat → ℂ → Except PyErr ℂ
  | [], _, acc => .ok acc
  | c :: rest, index, acc =>
    match pyInt c with
    | .error e => .error e
    | .ok d =>
      match symbols[d]? with
      | some v => from_repr_aux radix symbols rest (index + 1) (acc + v * radix ^ index)
      | none => .error .IndexError

/-- `from_repr` (src/app.py lines 28-43): evaluates a digit string as a
polynomial in the radix over the symbol table, least-significant digit
(rightmost character) first. -/
def from_repr (s : List Char) (radix : ℂ) (symbols : List ℂ) : Except PyErr ℂ :=
  from_repr_aux radix symbols s.reverse 0 0

/-- The `while num > 0` loop of `to_base` (src/app.py lines 58-62), with
explicit fuel: `none` means the loop did not finish within `fuel` iterations
(for `base = 1` it never finishes), and division by `base = 0` raises
Python's `ZeroDivisionError`. -/
def to_base_loop : Nat → Nat → Nat → List Char → Option (Except PyErr (List Char))
  | 0, _, _, _ => none
  | fuel + 1, num, base, rep =>
    if 0 < num then
      if base = 0 then some (.error .ZeroDivisionError)
      else to_base_loop fuel (num / base) base (pyStr (num % base) ++ rep)
    else some (.ok rep)

/-- `to_base` (src/app.py lines 46-63): `"0"` for `num = 0`, otherwise the
repeated-division loop on the given fuel budget. -/
def to_base (fuel num base : Nat) : Option (Except PyErr (List Char)) :=
  if num = 0 then some (.ok ['0']) else to_base_loop fuel num base []

/-- Fuel-free form of the `to_base` loop.  It agrees with `to_base_loop`
whenever the latter returns normally and `2 ≤ base` (see
`to_base_loop_eq_toBaseCore`); for `base < 2` it bails out, which is fine
because it is only ever used at bases ≥ 2. -/
def toBaseCore (base : Nat) (num : Nat) (rep : List Char) : List Char :=
  if h : 0 < num ∧ 2 ≤ base then toBaseCore base (num / base) (pyStr (num % base) ++ rep)
  else rep
termination_by num
decreasing_by exact Nat.div_lt_self h.1 h.2

/-- Total counterpart of `to_base` for bases ≥ 2, used to model the digit
lengths computed inside `draw`. -/
def to_base_wf (num base : Nat) : List Char :=
  if num = 0 then ['0'] else toBaseCore base num []

/-- The symbol table `[0, 1, ..., level-1]` taken as plain real values, the
round-trip scenario of the spec. -/
def symtab (level : Nat) : List ℂ :=
  (List.range level).map (fun d : ℕ => (d : ℂ))

/-- `generate_roots_of_unity` (src/app.py lines 14-25): for `n > 0` the value
`0` followed by `exp(2πik/n)` for `k = 1..n`; otherwise the silent default
`[0]`. -/
noncomputable def generate_roots_of_unity (n : ℤ) : List ℂ :=
  if 0 < n then
    0 :: (List.range n.toNat).map
      (fun k : ℕ => Complex.exp (2 * Real.pi * Complex.I * ((k : ℂ) + 1) / (n : ℂ)))
  else [0]

/-- The digit-string lengths computed by `draw` (src/app.py line 92). -/
def draw_lengths (level N : Nat) : List Nat :=
  (List.range N).map (fun i => (to_base_wf i level).length)

/-- `max_length` of `draw` (src/app.py line 93): Python's `max` over the
length list, modelled as a fold (the list is nonempty whenever `1 ≤ N`). -/
def draw_max_length (level N : Nat) : Nat :=
  (draw_lengths level N).foldr max 0

/-- The normalized weights of `draw` (src/app.py line 101), with the float
division modelled exactly over `ℚ`. -/
def draw_weights (symbols : List ℂ) (N : Nat) : List ℚ :=
  (draw_lengths symbols.length N).map
    (fun len : ℕ => (len : ℚ) / (draw_max_length symbols.length N : ℚ))

/-- Characters produced by `decChar` below ten are decimal digits. -/
theorem decChar_isDigit {d : Nat} (h : d < 10) : (decChar d).isDigit = true := by
  interval_cases d <;> decide

/-- `digitVal` inverts `decChar` below ten. -/
theorem digitVal_decChar {d : Nat} (h : d < 10) : digitVal (decChar d) = d := by
  interval_cases d <;> decide

/-- Python's `int` recovers the value of a single decimal digit character. -/
theorem pyInt_decChar {d : Nat} (h : d < 10) : pyInt (decChar d) = .ok d := by
  simp [pyInt, decChar_isDigit h, digitVal_decChar h]

/-- `str` of a value below ten is the single corresponding digit character. -/
theorem pyStr_lt_ten {n : Nat} (h : n < 10) : pyStr n = [decChar n] := by
  interval_cases n <;> rfl

/-- The `pyStr` loop never shortens its accumulator. -/
theorem pyStrAux_length (fuel : Nat) : ∀ (n : Nat) (acc : List Char),
    acc.length ≤ (pyStrAux fuel n acc).length := by
  induction fuel with
  | zero => intro n acc; exact le_rfl
  | succ fuel ih =>
    intro n acc
    rw [pyStrAux]
    split
    · exact le_rfl
    · exact le_trans (Nat.le_succ acc.length) (ih (n / 10) (decChar (n % 10) :: acc))

/-- `str` of a natural number is never the empty string. -/
theorem pyStr_length_pos (n : Nat) : 1 ≤ (pyStr n).length := by
  rw [pyStr]
  split
  · decide
  · next h =>
    obtain ⟨m, rfl⟩ := Nat.exists_eq_succ_of_ne_zero h
    rw [pyStrAux, if_neg h]
    exact le_trans (by simp) (pyStrAux_length m _ _)

/-- When the fueled `to_base` loop finishes normally at a base ≥ 2, its result
is the fuel-free `toBaseCore`. -/
theorem to_base_loop_eq_toBaseCore {base : Nat} (hb : 2 ≤ base) :
    ∀ (fuel num : Nat) (rep ds : List Char),
      to_base_loop fuel num base rep = some (.ok ds) → ds = toBaseCore base num rep := by
  intro fuel
  induction fuel with
  | zero => intro num rep ds h; simp [to_base_loop] at h
  | succ fuel ih =>
    intro num rep ds h
    rw [to_base_loop] at h
    rw [toBaseCore]
    by_cases hnum : 0 < num
    · rw [if_pos hnum, if_neg (by omega : ¬base = 0)] at h
      rw [dif_pos ⟨hnum, hb⟩]
      exact ih _ _ _ h
    · rw [if_neg hnum] at h
      rw [dif_neg (fun hc => hnum hc.1)]
      simp only [Option.some.injEq, Except.ok.injEq] at h
      exact h.symm

/-- For `2 ≤ base ≤ 10`, `toBaseCore` produces exactly the base-`base` digits
of `num` (as characters, most significant first) in front of `rep`. -/
theorem toBaseCore_digits {base : Nat} (hb : 2 ≤ base) (h10 : base ≤ 10) :
    ∀ (num : Nat) (rep : List Char),
      toBaseCore base num rep = ((Nat.digits base num).reverse.map decChar) ++ rep := by
  intro num
  induction num using Nat.strong_induction_on with
  | _ num ih =>
    intro rep
    rw [toBaseCore]
    by_cases hnum : 0 < num
    · rw [dif_pos ⟨hnum, hb⟩]
      rw [ih (num / base) (Nat.div_lt_self hnum (by omega)) _]
      rw [Nat.digits_def' (by omega : 1 < base) hnum]
      rw [pyStr_lt_ten (lt_of_lt_of_le (Nat.mod_lt num (by omega)) h10)]
      simp
    · rw [dif_neg (fun hc => hnum hc.1)]
      have : num = 0 := by omega
      subst this
      simp

/-- `toBaseCore` never shortens its accumulator. -/
theorem toBaseCore_length (base : Nat) : ∀ (num : Nat) (rep : List Char),
    rep.length ≤ (toBaseCore base num rep).length := by
  intro num
  induction num using Nat.strong_induction_on with
  | _ num ih =>
    intro rep
    rw [toBaseCore]
    split
    · next h =>
      refine le_trans ?_ (ih (num / base) (Nat.div_lt_self h.1 h.2) _)
      simp
    · exact le_rfl

/-- Digit strings produced at a base ≥ 2 are nonempty. -/
theorem to_base_wf_length_pos {num base : Nat} (hb : 2 ≤ base) :
    1 ≤ (to_base_wf num base).length := by
  rw [to_base_wf]
  split
  · decide
  · next h =>
    rw [toBaseCore, dif_pos ⟨Nat.pos_of_ne_zero h, hb⟩]
    refine le_trans ?_ (toBaseCore_length base _ _)
    simpa using pyStr_length_pos (num % base)

/-- `pyInt` on a decimal digit character returns its value. -/
theorem pyInt_isDigit {c : Char} (hc : c.isDigit = true) : pyInt c = .ok (digitVal c) := by
  rw [pyInt, if_pos hc]

/-- Successful step of the `from_repr` loop. -/
theorem from_repr_aux_cons {radix : ℂ} {symbols : List ℂ} {c : Char} {rest : List Char}
    {index : Nat} {acc : ℂ} {d : Nat} {v : ℂ}
    (h1 : pyInt c = .ok d) (h2 : symbols[d]? = some v) :
    from_repr_aux radix symbols (c :: rest) index acc =
      from_repr_aux radix symbols rest (index + 1) (acc + v * radix ^ index) := by
  rw [from_repr_aux, h1]
  simp [h2]

/-- Failing lookup step of the `from_repr` loop. -/
theorem from_repr_aux_cons_none {radix : ℂ} {symbols : List ℂ} {c : Char} {rest : List Char}
    {index : Nat} {acc : ℂ} {d : Nat}
    (h1 : pyInt c = .ok d) (h2 : symbols[d]? = none) :
    from_repr_aux radix symbols (c :: rest) index acc = .error .IndexError := by
  rw [from_repr_aux, h1]
  simp [h2]

/-- Indexing into the round-trip symbol table `[0, 1, ..., level-1]`. -/
theorem symtab_getElem? {d level : Nat} (h : d < level) :
    (symtab level)[d]? = some (d : ℂ) := by
  simp only [symtab, List.getElem?_map, List.getElem?_range h, Option.map_some']

/-- `getD` form of `symtab_getElem?`. -/
theorem symtab_getD {d level : Nat} (h : d < level) :
    (symtab level).getD d 0 = (d : ℂ) := by
  rw [List.getD_eq_getElem?_getD, symtab_getElem? h, Option.getD_some]

/-- The `from_repr` loop computes the positional polynomial: starting at power
`index` with accumulator `acc`, it adds `symbols[digit_k] * radix ^ (index + k)`
for the `k`-th character of its (least-significant-first) input. -/
theorem from_repr_aux_sum (radix : ℂ) (symbols : List ℂ) :
    ∀ (l : List Char) (index : Nat) (acc : ℂ),
      (∀ c ∈ l, c.isDigit = true ∧ digitVal c < symbols.length) →
      from_repr_aux radix symbols l index acc =
        .ok (acc + ∑ k ∈ Finset.range l.length,
          symbols.getD (digitVal (l.getD k '0')) 0 * radix ^ (index + k)) := by
  intro l
  induction l with
  | nil => intro index acc _; simp [from_repr_aux]
  | cons c rest ih =>
    intro index acc h
    obtain ⟨hc, hrest⟩ := List.forall_mem_cons.mp h
    have hsome : symbols[digitVal c]? = some (symbols.getD (digitVal c) 0) := by
      rw [List.getElem?_eq_getElem hc.2, List.getD_eq_getElem _ _ hc.2]
    rw [from_repr_aux_cons (pyInt_isDigit hc.1) hsome, ih (index + 1) _ hrest]
    have hsum :
        ∑ k ∈ Finset.range rest.length,
            symbols.getD (digitVal (rest.getD k '0')) 0 * radix ^ (index + (k + 1)) =
          ∑ k ∈ Finset.range rest.length,
            symbols.getD (digitVal (rest.getD k '0')) 0 * radix ^ (index + 1 + k) := by
      refine Finset.sum_congr rfl fun k _ => ?_
      have hk : index + (k + 1) = index + 1 + k := by omega
      rw [hk]
    rw [List.length_cons, Finset.sum_range_succ']
    simp only [List.getD_cons_succ, List.getD_cons_zero, add_zero]
    rw [hsum]
    congr 1
    ring

/-- The `from_repr` loop over digit characters raises `IndexError` as soon as a
digit value has no symbol-table entry. -/
theorem from_repr_aux_index_error (radix : ℂ) (symbols : List ℂ) :
    ∀ (l : List Char) (index : Nat) (acc : ℂ),
      (∀ c ∈ l, c.isDigit = true) →
      (∃ c ∈ l, symbols.length ≤ digitVal c) →
      from_repr_aux radix symbols l index acc = .error .IndexError := by
  intro l
  induction l with
  | nil => intro _ _ _ hbad; simp at hbad
  | cons c rest ih =>
    intro index acc hdig hbad
    obtain ⟨hc, hrest⟩ := List.forall_mem_cons.mp hdig
    by_cases hd : digitVal c < symbols.length
    · have hsome : symbols[digitVal c]? = some (symbols.getD (digitVal c) 0) := by
        rw [List.getElem?_eq_getElem hd, List.getD_eq_getElem _ _ hd]
      rw [from_repr_aux_cons (pyInt_isDigit hc) hsome]
      obtain ⟨c', hc', hge⟩ := hbad
      rcases List.mem_cons.mp hc' with rfl | hmem
      · omega
      · exact ih _ _ hrest ⟨c', hmem, hge⟩
    · exact from_repr_aux_cons_none (pyInt_isDigit hc)
        (List.getElem?_eq_none (by omega))

/-- Every element of a `Nat` list is bounded by its `foldr max 0`. -/
theorem le_foldr_max (l : List Nat) : ∀ x ∈ l, x ≤ l.foldr max 0 := by
  induction l with
  | nil => simp
  | cons a t ih =>
    intro x hx
    rcases List.mem_cons.mp hx with rfl | hx
    · exact le_max_left _ _
    · exact le_trans (ih x hx) (le_max_right _ _)

/-- The `foldr max 0` of a `Nat` list is an element unless it is zero. -/
theorem foldr_max_mem (l : List Nat) : l.foldr max 0 ∈ l ∨ l.foldr max 0 = 0 := by
  induction l with
  | nil => right; rfl
  | cons a t ih =>
    rcases le_total a (t.foldr max 0) with h | h
    · rw [List.foldr_cons, max_eq_right h]
      rcases ih with hm | h0
      · left; exact List.mem_cons_of_mem _ hm
      · right; exact h0
    · left
      rw [List.foldr_cons, max_eq_left h]
      exact List.mem_cons_self _ _

/-- On digit characters with values below `level ≤ 10`, the `from_repr` loop
over the round-trip symbol table computes `Nat.ofDigits`. -/
theorem from_repr_aux_ofDigits (radix : ℂ) {level : Nat} (h10 : level ≤ 10) :
    ∀ (ds : List Nat) (index : Nat) (acc : ℂ),
      (∀ d ∈ ds, d < level) →
      from_repr_aux radix (symtab level) (ds.map decChar) index acc =
        .ok (acc + Nat.ofDigits radix ds * radix ^ index) := by
  intro ds
  induction ds with
  | nil => intro index acc _; simp [from_repr_aux, Nat.ofDigits]
  | cons d rest ih =>
    intro index acc h
    obtain ⟨hd, hrest⟩ := List.forall_mem_cons.mp h
    have hd10 : d < 10 := lt_of_lt_of_le hd h10
    rw [List.map_cons, from_repr_aux_cons (pyInt_decChar hd10) (symtab_getElem? hd),
      ih (index + 1) _ hrest]
    congr 1
    have hcons : Nat.ofDigits radix (d :: rest) = (d : ℂ) + radix * Nat.ofDigits radix rest := rfl
    rw [hcons]
    ring

/-- Claim C10: for every complex radix and every symbol table, including the
empty one, `from_repr` applied to the empty digit string returns exactly 0,
without error and without reading any symbol-table entry. -/
theorem from_repr_nil (radix : ℂ) (symbols : List ℂ) :
    from_repr [] radix symbols = .ok 0 := rfl

/-- Claim C8: `to_base` of `num = 0` is the one-character string "0" for every
fuel budget and every base whatsoever — in particular for every `level ≥ 2`,
and the result does not depend on the level supplied. -/
theorem to_base_zero (fuel level : Nat) :
    to_base fuel 0 level = some (.ok ['0']) := rfl

/-- Claim C2: on a digit string whose characters are decimal digits with
values below the symbol-table size, `from_repr` returns the polynomial sum
`Σ_{k < L} S[digit_k] * r^k` with `digit_0` the rightmost character; as the
`k = 0` term carries `r^0 = 1` even when `r = 0`, a one-character string
evaluates to its symbol value for any radix. -/
theorem from_repr_polynomial_sum (s : List Char) (radix : ℂ) (symbols : List ℂ)
    (h : ∀ c ∈ s, c.isDigit = true ∧ digitVal c < symbols.length) :
    from_repr s radix symbols =
      .ok (∑ k ∈ Finset.range s.length,
        symbols.getD (digitVal (s.reverse.getD k '0')) 0 * radix ^ k) ∧
    (∀ c : Char, s = [c] →
      from_repr s radix symbols = .ok (symbols.getD (digitVal c) 0)) := by
  have hrev : ∀ c ∈ s.reverse, c.isDigit = true ∧ digitVal c < symbols.length :=
    fun c hc => h c (List.mem_reverse.mp hc)
  have hmain : from_repr s radix symbols =
      .ok (∑ k ∈ Finset.range s.length,
        symbols.getD (digitVal (s.reverse.getD k '0')) 0 * radix ^ k) := by
    rw [from_repr, from_repr_aux_sum radix symbols s.reverse 0 0 hrev]
    simp [List.length_reverse]
  refine ⟨hmain, ?_⟩
  intro c hc
  subst hc
  rw [hmain]
  simp

/-- Witness for C2 on the concrete string "21" with radix 5 and symbol table
`[0, 1, 2]`. -/
theorem from_repr_polynomial_sum_witness :
    (∀ c ∈ (['2', '1'] : List Char), c.isDigit = true ∧ digitVal c < ([0, 1, 2] : List ℂ).length) ∧
    (from_repr ['2', '1'] 5 [0, 1, 2] =
      .ok (∑ k ∈ Finset.range (['2', '1'] : List Char).length,
        ([0, 1, 2] : List ℂ).getD (digitVal ((['2', '1'] : List Char).reverse.getD k '0')) 0 * 5 ^ k) ∧
    (∀ c : Char, (['2', '1'] : List Char) = [c] →
      from_repr ['2', '1'] 5 [0, 1, 2] = .ok (([0, 1, 2] : List ℂ).getD (digitVal c) 0))) :=
  ⟨by decide, from_repr_polynomial_sum ['2', '1'] 5 [0, 1, 2] (by decide)⟩

/-- Claim C9: on a string of decimal digit characters, `from_repr` fails with
an `IndexError` whenever some digit value is ≥ |S|, and returns normally
whenever every digit value is < |S|. -/
theorem from_repr_index_error (s : List Char) (radix : ℂ) (symbols : List ℂ)
    (hdig : ∀ c ∈ s, c.isDigit = true) :
    ((∃ c ∈ s, symbols.length ≤ digitVal c) →
      from_repr s radix symbols = .error .IndexError) ∧
    ((∀ c ∈ s, digitVal c < symbols.length) →
      ∃ z : ℂ, from_repr s radix symbols = .ok z) := by
  constructor
  · intro hbad
    obtain ⟨c, hc, hge⟩ := hbad
    exact from_repr_aux_index_error radix symbols s.reverse 0 0
      (fun c' hc' => hdig c' (List.mem_reverse.mp hc'))
      ⟨c, List.mem_reverse.mpr hc, hge⟩
  · intro hlt
    exact ⟨_, from_repr_aux_sum radix symbols s.reverse 0 0
      (fun c hc => ⟨hdig c (List.mem_reverse.mp hc), hlt c (List.mem_reverse.mp hc)⟩)⟩

/-- Witness for C9: the digit '3' has no entry in the two-element symbol table,
so evaluation raises `IndexError`. -/
theorem from_repr_index_error_witness :
    (∀ c ∈ (['3'] : List Char), c.isDigit = true) ∧
    from_repr ['3'] 0 [0, 1] = .error .IndexError :=
  ⟨by decide,
    (from_repr_index_error ['3'] 0 [0, 1] (by decide)).1 ⟨'3', by decide, by decide⟩⟩

/-- Claim C1 (amended): for `2 ≤ level ≤ 10`, evaluating the digit string
produced by `to_base` at radix `level` over the symbol table
`[0, ..., level-1]` recovers the number.  The upper bound `level ≤ 10` is
forced by the decimal character encoding of digits; see
`from_repr_to_base_roundtrip_cex`. -/
theorem from_repr_to_base_roundtrip (level num fuel : Nat) (ds : List Char)
    (h2 : 2 ≤ level) (h10 : level ≤ 10)
    (hds : to_base fuel num level = some (.ok ds)) :
    from_repr ds (level : ℂ) (symtab level) = .ok (num : ℂ) := by
  rw [to_base] at hds
  by_cases h0 : num = 0
  · subst h0
    rw [if_pos rfl] at hds
    simp only [Option.some.injEq, Except.ok.injEq] at hds
    subst hds
    rw [from_repr]
    have h01 : ((['0'] : List Char)).reverse = [0].map decChar := rfl
    rw [h01, from_repr_aux_ofDigits (level : ℂ) h10 [0] 0 0 (by intro d hd; simp at hd; omega)]
    simp [Nat.ofDigits]
  · rw [if_neg h0] at hds
    have hds' := to_base_loop_eq_toBaseCore h2 fuel num [] ds hds
    rw [toBaseCore_digits h2 h10 num [], List.append_nil] at hds'
    subst hds'
    rw [from_repr, List.map_reverse, List.reverse_reverse]
    rw [from_repr_aux_ofDigits (level : ℂ) h10 (Nat.digits level num) 0 0
      (fun d hd => Nat.digits_lt_base (by omega) hd)]
    simp only [zero_add, pow_zero, mul_one, ← Nat.coe_ofDigits, Nat.ofDigits_digits]

/-- Witness for C1 (amended) at `level = 2`, `num = 5`: the digit string is
"101" and it evaluates back to 5. -/
theorem from_repr_to_base_roundtrip_witness :
    (2 ≤ 2 ∧ 2 ≤ 10 ∧ to_base 6 5 2 = some (.ok ['1', '0', '1'])) ∧
    from_repr ['1', '0', '1'] ((2 : ℕ) : ℂ) (symtab 2) = .ok ((5 : ℕ) : ℂ) :=
  ⟨⟨by decide, by decide, by decide⟩,
    from_repr_to_base_roundtrip 2 5 6 ['1', '0', '1'] (by decide) (by decide) (by decide)⟩

/-- Counterexample to C1 as stated: at `level = 11` the remainder 10 is
rendered as the two characters "10", so the generated string for `num = 10`
evaluates to 11, not 10 — the round trip fails for levels above 10. -/
theorem from_repr_to_base_roundtrip_cex :
    to_base 20 10 11 = some (.ok ['1', '0']) ∧
    from_repr ['1', '0'] ((11 : ℕ) : ℂ) (symtab 11) ≠ .ok ((10 : ℕ) : ℂ) := by
  constructor
  · decide
  · have hrev : ((['1', '0'] : List Char)).reverse = ['0', '1'] := rfl
    rw [from_repr, hrev]
    rw [from_repr_aux_cons (by decide : pyInt '0' = .ok 0)
      (symtab_getElem? (by norm_num : (0 : ℕ) < 11))]
    rw [from_repr_aux_cons (by decide : pyInt '1' = .ok 1)
      (symtab_getElem? (by norm_num : (1 : ℕ) < 11))]
    rw [from_repr_aux]
    simp only [ne_eq, Except.ok.injEq]
    push_cast
    norm_num

/-- Claim C5 (amended): for `2 ≤ level ≤ 10` and `k ≥ 1`, when `to_base`
returns a digit string for `num`, its length is `k` exactly when
`level^(k-1) ≤ num < level^k` (for `num ≥ 1`), and for `num = 0` the length
is 1.  The upper bound `level ≤ 10` is forced by the decimal character
encoding of digits; see `to_base_length_cex`. -/
theorem to_base_length_iff (level k num fuel : Nat) (ds : List Char)
    (h2 : 2 ≤ level) (h10 : level ≤ 10) (hk : 1 ≤ k)
    (hds : to_base fuel num level = some (.ok ds)) :
    (1 ≤ num → (ds.length = k ↔ level ^ (k - 1) ≤ num ∧ num < level ^ k)) ∧
    (num = 0 → ds.length = 1) := by
  constructor
  · intro h1
    rw [to_base, if_neg (by omega : ¬num = 0)] at hds
    have hds' := to_base_loop_eq_toBaseCore h2 fuel num [] ds hds
    rw [toBaseCore_digits h2 h10 num [], List.append_nil] at hds'
    subst hds'
    rw [List.length_map, List.length_reverse]
    rw [Nat.digits_len level num (by omega) (by omega)]
    have hiff := @Nat.log_eq_iff level (k - 1) num
      (Or.inr ⟨(by omega : 1 < level), (by omega : num ≠ 0)⟩)
    rw [show k - 1 + 1 = k by omega] at hiff
    constructor
    · intro hl
      exact hiff.mp (by omega)
    · intro hl
      have := hiff.mpr hl
      omega
  · intro h0
    subst h0
    rw [to_base, if_pos rfl] at hds
    simp only [Option.some.injEq, Except.ok.injEq] at hds
    subst hds
    rfl

/-- Witness for C5 (amended) at `level = 2`, `num = 5`, `k = 3`: the digit
string "101" has length 3 and indeed `4 ≤ 5 < 8`. -/
theorem to_base_length_iff_witness :
    (2 ≤ 2 ∧ 2 ≤ 10 ∧ 1 ≤ 3 ∧ to_base 6 5 2 = some (.ok ['1', '0', '1'])) ∧
    ((1 ≤ 5 → ((['1', '0', '1'] : List Char).length = 3 ↔ 2 ^ (3 - 1) ≤ 5 ∧ 5 < 2 ^ 3)) ∧
      (5 = 0 → (['1', '0', '1'] : List Char).length = 1)) :=
  ⟨⟨by decide, by decide, by decide, by decide⟩,
    to_base_length_iff 2 3 5 6 ['1', '0', '1'] (by decide) (by decide) (by decide) (by decide)⟩

/-- Counterexample to C5 as stated: at `level = 12` the single base-12 digit
of `num = 10` is rendered as the two characters "10", so its digit-string
length is 2 although `12^0 ≤ 10 < 12^1` demands length 1. -/
theorem to_base_length_cex :
    to_base 20 10 12 = some (.ok ['1', '0']) ∧
    12 ^ (1 - 1) ≤ 10 ∧ 10 < 12 ^ 1 ∧ (['1', '0'] : List Char).length ≠ 1 := by
  decide

/-- At base 1 the `to_base` loop never terminates: it yields no result on any
fuel budget (the Python loop runs forever because `num // 1 = num`). -/
theorem to_base_loop_one : ∀ (fuel num : Nat) (rep : List Char), 1 ≤ num →
    to_base_loop fuel num 1 rep = none := by
  intro fuel
  induction fuel with
  | zero => intro num rep h; rfl
  | succ fuel ih =>
    intro num rep h
    rw [to_base_loop, if_pos (by omega : 0 < num), if_neg (by omega : ¬(1 : Nat) = 0)]
    rw [Nat.div_one]
    exact ih num _ h

/-- Claim C3 (code bug): `to_base` has no `InvalidArgument` guard for bases
below 2.  For `num ≥ 1` it never terminates at base 1 (no fuel budget
yields a result), it raises Python's `ZeroDivisionError` at base 0, and for
`num = 0` it returns "0" regardless of the base. -/
theorem to_base_low_base_behavior (num fuel : Nat) (h1 : 1 ≤ num) :
    to_base fuel num 1 = none ∧
    (1 ≤ fuel → to_base fuel num 0 = some (.error .ZeroDivisionError)) ∧
    (∀ base : Nat, to_base fuel 0 base = some (.ok ['0'])) := by
  refine ⟨?_, ?_, fun base => rfl⟩
  · rw [to_base, if_neg (by omega : ¬num = 0)]
    exact to_base_loop_one fuel num [] h1
  · intro hf
    obtain ⟨f, rfl⟩ := Nat.exists_eq_succ_of_ne_zero (by omega : fuel ≠ 0)
    rw [to_base, if_neg (by omega : ¬num = 0)]
    rw [to_base_loop, if_pos (by omega : 0 < num), if_pos rfl]

/-- Witness for C3 at `num = 1`, `fuel = 1`. -/
theorem to_base_low_base_behavior_witness :
    (1 ≤ 1) ∧
    (to_base 1 1 1 = none ∧
      (1 ≤ 1 → to_base 1 1 0 = some (.error .ZeroDivisionError)) ∧
      (∀ base : Nat, to_base 1 0 base = some (.ok ['0']))) :=
  ⟨by decide, to_base_low_base_behavior 1 1 (by decide)⟩

/-- Counterexample to C4 as stated: `generate_roots_of_unity 0` does not fail
with any error condition — it silently returns the degraded table `[0]`
(the code comments this fallback as a deliberate default). -/
theorem generate_roots_of_unity_zero_cex :
    generate_roots_of_unity 0 = [0] := by
  rw [generate_roots_of_unity, if_neg (by omega : ¬(0 : ℤ) < 0)]

/-- Claim C4 (amended): for every integer `n < 1`, `generate_roots_of_unity`
does not fail; it silently returns the degraded one-entry table `[0]`. -/
theorem generate_roots_of_unity_nonpositive (n : ℤ) (h : n < 1) :
    generate_roots_of_unity n = [0] := by
  rw [generate_roots_of_unity, if_neg (by omega : ¬0 < n)]

/-- Witness for C4 (amended) at `n = 0`. -/
theorem generate_roots_of_unity_nonpositive_witness :
    ((0 : ℤ) < 1) ∧ generate_roots_of_unity 0 = [0] :=
  ⟨by decide, generate_roots_of_unity_nonpositive 0 (by decide)⟩

/-- Claim C7: for `n ≥ 1` the generated symbol table has size `n + 1`, starts
with the value 0, and its entry at position `k` for `k = 1..n` is the
unit-circle point `exp(2πik/n)`; in particular
`generate_roots_of_unity 1 = [0, 1]`. -/
theorem generate_roots_of_unity_spec (n : ℤ) (hn : 1 ≤ n) :
    (generate_roots_of_unity n).length = n.toNat + 1 ∧
    (generate_roots_of_unity n).getD 0 0 = 0 ∧
    (∀ k : ℕ, 1 ≤ k → k ≤ n.toNat →
      (generate_roots_of_unity n).getD k 0 =
        Complex.exp (2 * Real.pi * Complex.I * (k : ℂ) / (n : ℂ))) ∧
    generate_roots_of_unity 1 = [0, 1] := by
  have hpos : (0 : ℤ) < n := by omega
  refine ⟨?_, ?_, ?_, ?_⟩
  · rw [generate_roots_of_unity, if_pos hpos]
    simp
  · rw [generate_roots_of_unity, if_pos hpos]
    rfl
  · intro k hk1 hkn
    obtain ⟨j, rfl⟩ : ∃ j, k = j + 1 := ⟨k - 1, by omega⟩
    rw [generate_roots_of_unity, if_pos hpos, List.getD_cons_succ]
    have hjlen : j < ((List.range n.toNat).map
        (fun k : ℕ => Complex.exp (2 * Real.pi * Complex.I * ((k : ℂ) + 1) / (n : ℂ)))).length := by
      simpa using (by omega : j < n.toNat)
    rw [List.getD_eq_getElem _ _ hjlen]
    simp only [List.getElem_map, List.getElem_range]
    congr 1
    push_cast
    ring
  · rw [generate_roots_of_unity, if_pos (by omega : (0 : ℤ) < 1)]
    have h1 : Complex.exp (2 * (Real.pi : ℂ) * Complex.I * (((0 : ℕ) : ℂ) + 1) / ((1 : ℤ) : ℂ)) = 1 := by
      rw [show 2 * (Real.pi : ℂ) * Complex.I * (((0 : ℕ) : ℂ) + 1) / ((1 : ℤ) : ℂ) =
        2 * Real.pi * Complex.I by push_cast; ring]
      exact Complex.exp_two_pi_mul_I
    rw [show ((1 : ℤ).toNat) = 1 from rfl, show List.range 1 = [0] from rfl,
      List.map_cons, List.map_nil, h1]

/-- Witness for C7 at `n = 1`. -/
theorem generate_roots_of_unity_spec_witness :
    ((1 : ℤ) ≤ 1) ∧
    ((generate_roots_of_unity 1).length = (1 : ℤ).toNat + 1 ∧
      (generate_roots_of_unity 1).getD 0 0 = 0 ∧
      (∀ k : ℕ, 1 ≤ k → k ≤ (1 : ℤ).toNat →
        (generate_roots_of_unity 1).getD k 0 =
          Complex.exp (2 * Real.pi * Complex.I * (k : ℂ) / ((1 : ℤ) : ℂ))) ∧
      generate_roots_of_unity 1 = [0, 1]) :=
  ⟨by decide, generate_roots_of_unity_spec 1 (by decide)⟩

/-- Claim C6: for a symbol table of size ≥ 2 and a series of `N ≥ 1` points,
`draw` assigns, in index order, the weight `length_i / max_length`; hence
every weight lies in `[0, 1]` and at least one weight equals 1. -/
theorem draw_weights_bounds (S : List ℂ) (N : Nat) (hS : 2 ≤ S.length) (hN : 1 ≤ N) :
    (∀ w ∈ draw_weights S N, 0 ≤ w ∧ w ≤ 1) ∧
    (1 : ℚ) ∈ draw_weights S N ∧
    (draw_weights S N).length = N ∧
    (∀ i : Nat, i < N →
      (draw_weights S N).getD i 0 =
        ((to_base_wf i S.length).length : ℚ) / (draw_max_length S.length N : ℚ)) := by
  have hmem1 : (1 : ℕ) ∈ draw_lengths S.length N := by
    rw [draw_lengths]
    exact List.mem_map.mpr ⟨0, List.mem_range.mpr (by omega), rfl⟩
  have hmax1 : 1 ≤ draw_max_length S.length N :=
    le_foldr_max (draw_lengths S.length N) 1 hmem1
  have hmaxQ : (0 : ℚ) < (draw_max_length S.length N : ℚ) := by
    exact_mod_cast (by omega : 0 < draw_max_length S.length N)
  refine ⟨?_, ?_, ?_, ?_⟩
  · intro w hw
    rw [draw_weights] at hw
    obtain ⟨l, hl, rfl⟩ := List.mem_map.mp hw
    constructor
    · exact div_nonneg (Nat.cast_nonneg l) (Nat.cast_nonneg _)
    · rw [div_le_one hmaxQ]
      exact_mod_cast le_foldr_max (draw_lengths S.length N) l hl
  · rcases foldr_max_mem (draw_lengths S.length N) with hm | h0
    · rw [draw_weights]
      refine List.mem_map.mpr ⟨draw_max_length S.length N, hm, ?_⟩
      exact div_self (by exact_mod_cast (by omega : draw_max_length S.length N ≠ 0))
    · rw [draw_max_length] at hmax1
      omega
  · rw [draw_weights, List.length_map, draw_lengths, List.length_map, List.length_range]
  · intro i hi
    rw [draw_weights, List.getD_eq_getElem?_getD, List.getElem?_map,
      draw_lengths, List.getElem?_map, List.getElem?_range hi]
    rfl

/-- Witness for C6 with the symbol table `[0, 1]` and a one-point series. -/
theorem draw_weights_bounds_witness :
    (2 ≤ ([0, 1] : List ℂ).length ∧ 1 ≤ 1) ∧
    ((∀ w ∈ draw_weights [0, 1] 1, 0 ≤ w ∧ w ≤ 1) ∧
      (1 : ℚ) ∈ draw_weights [0, 1] 1 ∧
      (draw_weights [0, 1] 1).length = 1 ∧
      (∀ i : Nat, i < 1 →
        (draw_weights [0, 1] 1).getD i 0 =
          ((to_base_wf i ([0, 1] : List ℂ).length).length : ℚ) /
            (draw_max_length ([0, 1] : List ℂ).length 1 : ℚ))) :=
  ⟨⟨by decide, by decide⟩, draw_weights_bounds [0, 1] 1 (by decide) (by decide)⟩

/-- With fuel `num + 1` the `to_base` loop always finishes at a base ≥ 2. -/
theorem to_base_loop_total {base : Nat} (hb : 2 ≤ base) :
    ∀ (fuel num : Nat), num < fuel → ∀ rep : List Char,
      to_base_loop fuel num base rep = some (.ok (toBaseCore base num rep)) := by
  intro fuel
  induction fuel with
  | zero => intro num h; omega
  | succ fuel ih =>
    intro num h rep
    rw [to_base_loop, toBaseCore]
    by_cases hnum : 0 < num
    · rw [if_pos hnum, if_neg (by omega : ¬base = 0), dif_pos ⟨hnum, hb⟩]
      exact ih (num / base)
        (by have hlt : num / base < num := Nat.div_lt_self hnum (by omega : 1 < base); omega) _
    · rw [if_neg hnum, dif_neg (fun hc => hnum hc.1)]

/-- `to_base` terminates with the digits of `num` at every base ≥ 2, so the
success hypotheses of the round-trip and length theorems are satisfiable for
every `num`. -/
theorem to_base_total {num base : Nat} (hb : 2 ≤ base) :
    to_base (num + 1) num base = some (.ok (to_base_wf num base)) := by
  rw [to_base, to_base_wf]
  by_cases h0 : num = 0
  · subst h0
    rw [if_pos rfl, if_pos rfl]
  · rw [if_neg h0, if_neg h0]
    exact to_base_loop_total hb (num + 1) num (by omega) []

/-- `to_base_total` instantiated at a concrete input. -/
theorem to_base_total_witness :
    2 ≤ 2 ∧ to_base 6 5 2 = some (.ok (to_base_wf 5 2)) :=
  ⟨by decide, to_base_total (by decide)⟩
